import Mathlib

/-!
Verification of the Impala parquet column statistics accumulator
(be/src/exec/parquet-column-stats.inline.h).

The development shallowly embeds the accumulator and its per-type
specializations:
* the generic ColumnStats (T) with Update / Merge / EncodeToThrift,
  parameterized over a linear order, mirroring std::min / std::max;
* the plain binary codec (little-endian fixed width integers, 1-byte
  booleans, raw-byte strings, 12-byte int96 timestamps with post-decode
  calendar validation);
* the StringValue specialization with borrowed views, owned
  materialization buffers, and the buffer-invalidation discipline of
  Update / Merge / MaterializeStringValuesToInternalBuffers.

DCHECK assertions in the source are made explicit as a distinguished
assertViolation outcome, separate from an ordinary decode failure
(the function returning false).
-/

namespace ImpalaStats

/-- State of the generic accumulator ColumnStats of T: a has_values flag and
the current extrema.  The C++ fields min_value_ / max_value_ are default
constructed while has_values_ is false; the model carries their (meaningless)
contents explicitly. -/
structure ColumnStats (T : Type) where
  has_values : Bool
  min_value : T
  max_value : T
  deriving Repr, DecidableEq

/-- A freshly created accumulator: has_values_ is false, the extrema hold the
default-constructed value init. -/
def emptyStats {T : Type} (init : T) : ColumnStats T :=
  ⟨false, init, init⟩

/-- ColumnStats of T Update (lines 27-37): the first value sets min = max = v
and has_values = true; later values take pointwise std::min / std::max. -/
def ColumnStats.Update {T : Type} [LinearOrder T] (s : ColumnStats T) (v : T) :
    ColumnStats T :=
  if s.has_values then
    ⟨true, min s.min_value v, max s.max_value v⟩
  else
    ⟨true, v, v⟩

/-- ColumnStats of T Merge (lines 39-52): no-op when other is empty; copy when
the receiver is empty; otherwise pointwise std::min / std::max with the other
accumulator's extrema. -/
def ColumnStats.Merge {T : Type} [LinearOrder T] (s other : ColumnStats T) :
    ColumnStats T :=
  if other.has_values then
    if s.has_values then
      ⟨true, min s.min_value other.min_value, max s.max_value other.max_value⟩
    else
      ⟨true, other.min_value, other.max_value⟩
  else s

/-- Feed a whole list of values through Update, starting from the empty
accumulator. -/
def accumulate {T : Type} [LinearOrder T] (init : T) (l : List T) : ColumnStats T :=
  l.foldl ColumnStats.Update (emptyStats init)

/-- Outcome of an operation guarded by a DCHECK: either the ordinary result or
a violated debug assertion (fatal in debug builds). -/
inductive EncodeOutcome (α : Type) where
  | ok (v : α)
  | assertViolation
  deriving Repr, DecidableEq

/-- ColumnStats of T EncodeToThrift (lines 59-68): DCHECK(has_values_), then
plain-encodes min_value_ and max_value_ independently into the statistics
record.  The per-type encoder is passed as a parameter. -/
def EncodeToThrift {T : Type} (enc : T → List Nat) (s : ColumnStats T) :
    EncodeOutcome (List Nat × List Nat) :=
  if s.has_values then .ok (enc s.min_value, enc s.max_value) else .assertViolation

/-- States reachable from some freshly created accumulator by Update and Merge
(the merged other accumulator being itself reachable). -/
inductive Reachable {T : Type} [LinearOrder T] : ColumnStats T → Prop where
  | empty (init : T) : Reachable (emptyStats init)
  | update {s : ColumnStats T} (v : T) : Reachable s → Reachable (s.Update v)
  | merge {s t : ColumnStats T} : Reachable s → Reachable t → Reachable (s.Merge t)

section GenericLemmas

variable {T : Type} [LinearOrder T]

lemma update_of_empty (s : ColumnStats T) (v : T) (h : s.has_values = false) :
    s.Update v = ⟨true, v, v⟩ := by
  simp [ColumnStats.Update, h]

lemma update_of_nonempty (s : ColumnStats T) (v : T) (h : s.has_values = true) :
    s.Update v = ⟨true, min s.min_value v, max s.max_value v⟩ := by
  simp [ColumnStats.Update, h]

lemma foldl_update_true (l : List T) : ∀ a b : T,
    l.foldl ColumnStats.Update ⟨true, a, b⟩ =
      ⟨true, l.foldl min a, l.foldl max b⟩ := by
  induction l with
  | nil => intro a b; rfl
  | cons v vs ih =>
      intro a b
      simp only [List.foldl_cons]
      rw [update_of_nonempty _ v rfl]
      exact ih (min a v) (max b v)

lemma accumulate_cons (init v : T) (vs : List T) :
    accumulate init (v :: vs) = ⟨true, vs.foldl min v, vs.foldl max v⟩ := by
  simp only [accumulate, List.foldl_cons]
  rw [update_of_empty _ v rfl, foldl_update_true]

/-- Update is right-commutative on accumulator states, the key fact behind
order-insensitivity of accumulation. -/
lemma update_right_comm (s : ColumnStats T) (a b : T) :
    (s.Update a).Update b = (s.Update b).Update a := by
  rcases s with ⟨hv, x, y⟩
  cases hv <;>
    simp [ColumnStats.Update, min_right_comm, Max.right_comm, min_comm, max_comm,
      min_left_comm, max_left_comm]

lemma accumulate_perm (init : T) {l l' : List T} (h : l.Perm l') :
    accumulate init l = accumulate init l' :=
  h.foldl_eq' (fun x _ y _ z => update_right_comm z x y) _

end GenericLemmas

/-! ### Plain binary codec

Modelled from the spec: the ParquetPlainEncoder (exec/parquet-common.h) is not
part of the given sources; its encode/decode/byte-size contract is taken from
the spec's Binary Codec section: little-endian fixed width per numeric type,
decode failing when fewer input bytes are available than the type's width. -/

/-- Little-endian byte encoding of a natural number into exactly w bytes. -/
def toLE : Nat → Nat → List Nat
  | 0, _ => []
  | w + 1, n => n % 256 :: toLE w (n / 256)

/-- Little-endian byte decoding of a natural number. -/
def fromLE : List Nat → Nat
  | [] => 0
  | b :: bs => b + 256 * fromLE bs

/-- Modelled from the spec: ParquetPlainEncoder encode of a w-byte
little-endian fixed-width integer, two's complement for negative values.
Wrapped by ColumnStats of T EncodePlainValue (lines 70-77), which writes
exactly the computed byte size. -/
def encodeIntLE (w : Nat) (v : Int) : List Nat :=
  toLE w (v % ((2 : Int) ^ (8 * w))).toNat

/-- Modelled from the spec: ParquetPlainEncoder decode of a w-byte
little-endian fixed-width integer; fails (the C++ Decode returns -1, so
DecodePlainValue, lines 79-86, returns false) when the buffer holds fewer
than w bytes, otherwise consumes the first w bytes. -/
def decodeIntLE (w : Nat) (buffer : List Nat) : Option Int :=
  if buffer.length < w then none
  else
    let n := fromLE (buffer.take w)
    if (n : Int) < (2 : Int) ^ (8 * w - 1) then some (n : Int)
    else some ((n : Int) - (2 : Int) ^ (8 * w))

/-- Result of a bool DecodePlainValue call: the C++ function returns a bool
(false meaning decode failure) and fills a slot; its DCHECK is modelled as a
distinguished assertion outcome. -/
inductive BoolDecodeResult where
  | ok (v : Bool)
  | fail
  | assertViolation
  deriving Repr, DecidableEq

/-- ColumnStats of bool EncodePlainValue (lines 96-101): one character holding
1 for true and 0 for false, regardless of the bytes_needed argument. -/
def boolEncodePlainValue (v : Bool) : List Nat :=
  [if v then 1 else 0]

/-- ColumnStats of bool DecodePlainValue (lines 103-109): DCHECK that the
buffer holds exactly one byte, read the first byte as nonzero-means-true, and
return true; the function has no path returning false. -/
def boolDecodePlainValue (buffer : List Nat) : BoolDecodeResult :=
  if buffer.length = 1 then .ok (decide (buffer.headI ≠ 0)) else .assertViolation

/-- ColumnStats of bool BytesNeeded (lines 111-114): always 1. -/
def boolBytesNeeded (_v : Bool) : Int := 1

/-- A timestamp in Impala's int96 parquet layout: nanoseconds within the day
and a Julian day number. -/
structure TimestampValue where
  nanos : Nat
  day : Nat
  deriving Repr, DecidableEq

/-- Nanoseconds in one day. -/
def nanosPerDay : Nat := 86400 * 1000000000

/-- Julian day number of the earliest supported calendar date (1400-01-01). -/
def minValidDay : Nat := 2232400

/-- Julian day number of the latest supported calendar date (9999-12-31). -/
def maxValidDay : Nat := 5373484

/-- Modelled from the spec: TimestampValue IsValidDate (runtime code not in the
given sources) holds when the value is a valid calendar date/time, i.e. the
Julian day lies in the supported date range and the time fits within a day. -/
def TimestampValue.IsValidDate (t : TimestampValue) : Bool :=
  decide (minValidDay ≤ t.day) && decide (t.day ≤ maxValidDay)
    && decide (t.nanos < nanosPerDay)

/-- Modelled from the spec: ParquetPlainEncoder encode of a timestamp, the
fixed 12-byte int96 encoding: 8 bytes of nanoseconds followed by 4 bytes of
Julian day, little-endian each. -/
def encodeTimestamp (t : TimestampValue) : List Nat :=
  toLE 8 t.nanos ++ toLE 4 t.day

/-- Modelled from the spec: ParquetPlainEncoder fixed-width decode of a
timestamp; fails when fewer than 12 bytes are available. -/
def decodeTimestampFixed (buffer : List Nat) : Option TimestampValue :=
  if buffer.length < 12 then none
  else some ⟨fromLE (buffer.take 8), fromLE ((buffer.drop 8).take 4)⟩

/-- ColumnStats of TimestampValue DecodePlainValue (lines 117-129): run the
fixed-width decode, return false on its failure, and otherwise return the
result of IsValidDate on the decoded value (success only for calendar-valid
timestamps). -/
def timestampDecodePlainValue (buffer : List Nat) : Option TimestampValue :=
  match decodeTimestampFixed buffer with
  | none => none
  | some t => if t.IsValidDate then some t else none

/-- A StringValue as the codec sees it: the byte content referenced by its
ptr, with len equal to the number of referenced bytes. -/
structure StringValueM where
  bytes : List Nat
  deriving Repr, DecidableEq

/-- Length field of a StringValue. -/
def StringValueM.sLen (v : StringValueM) : Nat := v.bytes.length

/-- ColumnStats of StringValue EncodePlainValue (lines 132-136): the output is
assigned the raw bytes of the value, with no transform. -/
def stringEncodePlainValue (v : StringValueM) : List Nat := v.bytes

/-- ColumnStats of StringValue DecodePlainValue (lines 138-145): point the
result at the buffer's first byte, set len to the buffer's size, and return
true unconditionally; a zero-copy view of the input with no validation. -/
def stringDecodePlainValue (buffer : List Nat) : Option StringValueM :=
  some ⟨buffer⟩

/-! ### String specialization of the accumulator

StringValue extrema are views: either borrowed (a pointer and length into
memory owned by the external value source) or owned (pointing into one of the
accumulator's internal StringBuffer copies, which the model represents by the
copied bytes themselves).  Source memory is a byte at every address. -/

/-- External source memory: a byte at every address. -/
def Mem : Type := Nat → Nat

/-- Read len consecutive bytes of source memory starting at ptr. -/
def readBytes (m : Mem) (ptr len : Nat) : List Nat :=
  (List.range len).map fun i => m (ptr + i)

/-- A StringValue view: borrowed from external source memory (ptr and len), or
retargeted at an owned internal buffer holding the given bytes. -/
inductive StrView where
  | ext (ptr len : Nat)
  | owned (bytes : List Nat)
  deriving Repr, DecidableEq

/-- The bytes a view references under source memory m. -/
def viewBytes (m : Mem) : StrView → List Nat
  | .ext ptr len => readBytes m ptr len
  | .owned bs => bs

/-- Modelled from the spec: StringValue comparison
(runtime/string-value.inline.h is not among the given sources) is
byte-lexicographic on the referenced bytes. -/
def lexLt : List Nat → List Nat → Bool
  | [], [] => false
  | [], _ :: _ => true
  | _ :: _, [] => false
  | a :: as, b :: bs => if a < b then true else if b < a then false else lexLt as bs

/-- State of ColumnStats of StringValue: the generic fields plus the two
materialization buffers (empty list = StringBuffer IsEmpty). -/
structure StringStats where
  has_values : Bool
  min_value : StrView
  max_value : StrView
  min_buffer : List Nat
  max_buffer : List Nat
  deriving Repr, DecidableEq

/-- A freshly created string accumulator. -/
def emptyStringStats : StringStats :=
  ⟨false, .owned [], .owned [], [], []⟩

/-- ColumnStats of StringValue Update (lines 147-165): the first value sets
both extrema to the incoming view and clears both buffers; later values
replace an extremum, clearing its buffer, only when the strict
byte-lexicographic comparison says so. -/
def StringStats.SUpdate (m : Mem) (s : StringStats) (v : StrView) : StringStats :=
  if s.has_values then
    let s1 := if lexLt (viewBytes m v) (viewBytes m s.min_value)
      then { s with min_value := v, min_buffer := [] } else s
    if lexLt (viewBytes m s1.max_value) (viewBytes m v)
      then { s1 with max_value := v, max_buffer := [] } else s1
  else
    ⟨true, v, v, [], []⟩

/-- ColumnStats of StringValue Merge (lines 167-189): no-op for an empty
other; copy other's extrema (clearing both buffers) into an empty receiver;
otherwise compare byte-lexicographically side by side, clearing the buffer of
every replaced extremum. -/
def StringStats.SMerge (m : Mem) (s other : StringStats) : StringStats :=
  if other.has_values then
    if s.has_values then
      let s1 := if lexLt (viewBytes m other.min_value) (viewBytes m s.min_value)
        then { s with min_value := other.min_value, min_buffer := [] } else s
      if lexLt (viewBytes m s1.max_value) (viewBytes m other.max_value)
        then { s1 with max_value := other.max_value, max_buffer := [] } else s1
    else
      ⟨true, other.min_value, other.max_value, [], []⟩
  else s

/-- ColumnStats of StringValue MaterializeStringValuesToInternalBuffers
(lines 193-197): for each side whose buffer is empty, CopyToBuffer copies the
bytes the extremum references into the owned buffer and retargets the view at
the owned copy (CopyToBuffer itself is modelled from the spec: it is declared
outside the given sources). -/
def StringStats.materialize (m : Mem) (s : StringStats) : StringStats :=
  let s1 := if s.min_buffer.isEmpty then
      { s with min_buffer := viewBytes m s.min_value,
               min_value := .owned (viewBytes m s.min_value) }
    else s
  if s1.max_buffer.isEmpty then
      { s1 with max_buffer := viewBytes m s1.max_value,
                max_value := .owned (viewBytes m s1.max_value) }
  else s1

/-! ### Helper lemmas -/

lemma toLE_length (w n : Nat) : (toLE w n).length = w := by
  induction w generalizing n with
  | zero => rfl
  | succ w ih => simp [toLE, ih]

lemma fromLE_toLE (w n : Nat) (h : n < 256 ^ w) : fromLE (toLE w n) = n := by
  induction w generalizing n with
  | zero =>
      have : n = 0 := by simpa using h
      simp [this, toLE, fromLE]
  | succ w ih =>
      have hdiv : n / 256 < 256 ^ w := by
        apply Nat.div_lt_of_lt_mul
        rw [pow_succ] at h
        omega
      simp only [toLE, fromLE, ih _ hdiv]
      omega

lemma pow256_eq (w : Nat) : (256 : Nat) ^ w = 2 ^ (8 * w) := by
  rw [show (256 : Nat) = 2 ^ 8 from rfl, ← pow_mul]

lemma decodeIntLE_encodeIntLE (w : Nat) (hw : 1 ≤ w) (v : Int)
    (h1 : -(2 ^ (8 * w - 1)) ≤ v) (h2 : v < 2 ^ (8 * w - 1)) :
    decodeIntLE w (encodeIntLE w v) = some v := by
  have hH : (0 : Int) < 2 ^ (8 * w - 1) := by positivity
  have hM : (2 : Int) ^ (8 * w) = 2 * 2 ^ (8 * w - 1) := by
    have h := pow_succ (2 : Int) (8 * w - 1)
    rw [show 8 * w - 1 + 1 = 8 * w by omega] at h
    rw [h]; ring
  have hMpos : (0 : Int) < 2 ^ (8 * w) := by positivity
  have hmodnn : 0 ≤ v % 2 ^ (8 * w) := Int.emod_nonneg v (by omega)
  have hmodlt : v % 2 ^ (8 * w) < 2 ^ (8 * w) := Int.emod_lt_of_pos v hMpos
  set n : Nat := (v % 2 ^ (8 * w)).toNat with hn
  have hcast : (n : Int) = v % 2 ^ (8 * w) := Int.toNat_of_nonneg hmodnn
  have hpow : ((256 : Nat) ^ w : Int) = 2 ^ (8 * w) := by
    push_cast
    rw [show ((256 : Int)) = 2 ^ 8 by norm_num, ← pow_mul]
  have hnlt : n < 256 ^ w := by
    have : (n : Int) < ((256 : Nat) ^ w : Int) := by omega
    exact_mod_cast this
  have hvm : (n : Int) = v ∨ (n : Int) = v + 2 ^ (8 * w) := by
    rcases le_or_lt 0 v with hv | hv
    · left
      rw [hcast, Int.emod_eq_of_lt hv (by omega)]
    · right
      rw [hcast, show v % 2 ^ (8 * w) = (v + 2 ^ (8 * w) * 1) % 2 ^ (8 * w) by
        rw [Int.add_mul_emod_self_left],
        Int.emod_eq_of_lt (by omega) (by omega)]
      ring
  have hlen : (toLE w n).length = w := toLE_length w n
  have htake : (toLE w n).take w = toLE w n :=
    List.take_of_length_le (le_of_eq hlen)
  simp only [encodeIntLE, decodeIntLE, ← hn, hlen, lt_self_iff_false, if_false,
    htake, fromLE_toLE w n hnlt]
  rcases hvm with hvm | hvm
  · rw [if_pos (by omega), hvm]
  · rw [if_neg (by omega), hvm]
    congr 1
    ring

lemma encodeTimestamp_take8 (t : TimestampValue) :
    (encodeTimestamp t).take 8 = toLE 8 t.nanos := by
  rw [encodeTimestamp, List.take_left' (toLE_length 8 t.nanos)]

lemma encodeTimestamp_drop8 (t : TimestampValue) :
    (encodeTimestamp t).drop 8 = toLE 4 t.day := by
  rw [encodeTimestamp, List.drop_left' (toLE_length 8 t.nanos)]

lemma encodeTimestamp_length (t : TimestampValue) :
    (encodeTimestamp t).length = 12 := by
  rw [encodeTimestamp, List.length_append, toLE_length, toLE_length]

lemma isValidDate_bounds {t : TimestampValue} (h : t.IsValidDate = true) :
    t.nanos < 256 ^ 8 ∧ t.day < 256 ^ 4 := by
  rw [TimestampValue.IsValidDate, Bool.and_eq_true, Bool.and_eq_true,
    decide_eq_true_eq, decide_eq_true_eq, decide_eq_true_eq] at h
  have h8 : (256 : Nat) ^ 8 = 18446744073709551616 := by norm_num
  have h4 : (256 : Nat) ^ 4 = 4294967296 := by norm_num
  rw [nanosPerDay] at h
  rw [maxValidDay] at h
  omega

lemma decodeTimestampFixed_encode {t : TimestampValue} (h : t.IsValidDate = true) :
    decodeTimestampFixed (encodeTimestamp t) = some t := by
  obtain ⟨hn, hd⟩ := isValidDate_bounds h
  rw [decodeTimestampFixed, if_neg (by rw [encodeTimestamp_length]; omega),
    encodeTimestamp_take8, encodeTimestamp_drop8,
    List.take_of_length_le (le_of_eq (toLE_length 4 t.day)),
    fromLE_toLE 8 t.nanos hn, fromLE_toLE 4 t.day hd]

lemma foldl_min_min {T : Type} [LinearOrder T] (l : List T) :
    ∀ a b : T, l.foldl min (min a b) = min a (l.foldl min b) := by
  induction l with
  | nil => intro a b; rfl
  | cons c l ih =>
      intro a b
      simp only [List.foldl_cons]
      rw [min_assoc, ih]

lemma foldl_max_max {T : Type} [LinearOrder T] (l : List T) :
    ∀ a b : T, l.foldl max (max a b) = max a (l.foldl max b) := by
  induction l with
  | nil => intro a b; rfl
  | cons c l ih =>
      intro a b
      simp only [List.foldl_cons]
      rw [max_assoc, ih]

lemma merge_accumulate {T : Type} [LinearOrder T] (init : T) (l1 l2 : List T) :
    (accumulate init l1).Merge (accumulate init l2) = accumulate init (l1 ++ l2) := by
  cases l1 with
  | nil =>
      cases l2 with
      | nil => rfl
      | cons w ws =>
          rw [List.nil_append, accumulate_cons]
          rfl
  | cons v vs =>
      cases l2 with
      | nil =>
          rw [List.append_nil]
          rfl
      | cons w ws =>
          rw [accumulate_cons, accumulate_cons, List.cons_append, accumulate_cons,
            List.foldl_append, List.foldl_append, List.foldl_cons, List.foldl_cons]
          simp only [ColumnStats.Merge, if_true]
          rw [foldl_min_min, foldl_max_max]

lemma merge_accumulate_comm {T : Type} [LinearOrder T] (init : T) (l1 l2 : List T) :
    (accumulate init l1).Merge (accumulate init l2)
      = (accumulate init l2).Merge (accumulate init l1) := by
  rw [merge_accumulate, merge_accumulate]
  exact accumulate_perm init List.perm_append_comm

lemma merge_as_updates {T : Type} [LinearOrder T] (s other : ColumnStats T)
    (h1 : other.has_values = true) (h2 : other.min_value ≤ other.max_value) :
    s.Merge other = (s.Update other.min_value).Update other.max_value := by
  rcases s with ⟨hv, a, b⟩
  cases hv
  · simp only [ColumnStats.Merge, ColumnStats.Update, h1, if_true, if_false,
      Bool.false_eq_true]
    rw [min_eq_left h2, max_eq_right h2]
  · simp only [ColumnStats.Merge, ColumnStats.Update, h1, if_true]
    rw [min_assoc, max_assoc] at *
    rw [← min_assoc, ← max_assoc]
    congr 1
    · rw [min_assoc, min_eq_left h2]
    · rw [max_assoc, max_eq_right h2]

lemma update_preserves_le {T : Type} [LinearOrder T] (s : ColumnStats T) (v : T)
    (hs : s.has_values = true → s.min_value ≤ s.max_value) :
    (s.Update v).min_value ≤ (s.Update v).max_value := by
  rcases s with ⟨hv, a, b⟩
  cases hv
  · simp [ColumnStats.Update]
  · simp only [ColumnStats.Update, if_true]
    exact le_trans (min_le_left a v) (le_trans (hs rfl) (le_max_left b v))

lemma merge_preserves_le {T : Type} [LinearOrder T] (s t : ColumnStats T)
    (hs : s.has_values = true → s.min_value ≤ s.max_value)
    (ht : t.has_values = true → t.min_value ≤ t.max_value)
    (hv : (s.Merge t).has_values = true) :
    (s.Merge t).min_value ≤ (s.Merge t).max_value := by
  rcases s with ⟨sv, a, b⟩
  rcases t with ⟨tv, c, d⟩
  cases tv
  · exact hs hv
  · cases sv
    · simpa [ColumnStats.Merge] using ht rfl
    · simp only [ColumnStats.Merge, if_true]
      exact le_trans (min_le_left a c) (le_trans (hs rfl) (le_max_left b d))

lemma materialize_mk (m : Mem) (hv : Bool) (mn mx : StrView) (mb xb : List Nat) :
    StringStats.materialize m ⟨hv, mn, mx, mb, xb⟩ =
      ⟨hv,
       if mb.isEmpty then StrView.owned (viewBytes m mn) else mn,
       if xb.isEmpty then StrView.owned (viewBytes m mx) else mx,
       if mb.isEmpty then viewBytes m mn else mb,
       if xb.isEmpty then viewBytes m mx else xb⟩ := by
  unfold StringStats.materialize
  cases hmb : mb.isEmpty <;> cases hxb : xb.isEmpty <;> simp [hmb, hxb]

lemma materialize_idem (m mfree : Mem) (s : StringStats) :
    StringStats.materialize mfree (StringStats.materialize m s)
      = StringStats.materialize m s := by
  obtain ⟨hv, mn, mx, mb, xb⟩ := s
  rw [materialize_mk m, materialize_mk mfree]
  cases hmb : mb.isEmpty <;> cases hxb : xb.isEmpty <;>
    simp [hmb, hxb, viewBytes, ite_self]

lemma materialize_fresh_min (m mfree : Mem) (s : StringStats)
    (h : s.min_buffer = []) :
    (StringStats.materialize m s).min_buffer = viewBytes m s.min_value
    ∧ (StringStats.materialize m s).min_value
        = StrView.owned (viewBytes m s.min_value)
    ∧ viewBytes mfree (StringStats.materialize m s).min_value
        = viewBytes m s.min_value := by
  obtain ⟨hv, mn, mx, mb, xb⟩ := s
  simp only at h
  subst h
  rw [materialize_mk m]
  simp [viewBytes]

lemma materialize_fresh_max (m mfree : Mem) (s : StringStats)
    (h : s.max_buffer = []) :
    (StringStats.materialize m s).max_buffer = viewBytes m s.max_value
    ∧ (StringStats.materialize m s).max_value
        = StrView.owned (viewBytes m s.max_value)
    ∧ viewBytes mfree (StringStats.materialize m s).max_value
        = viewBytes m s.max_value := by
  obtain ⟨hv, mn, mx, mb, xb⟩ := s
  simp only at h
  subst h
  rw [materialize_mk m]
  simp [viewBytes]

lemma materialize_stale_min (m : Mem) (s : StringStats)
    (h : s.min_buffer ≠ []) :
    (StringStats.materialize m s).min_buffer = s.min_buffer
    ∧ (StringStats.materialize m s).min_value = s.min_value := by
  obtain ⟨hv, mn, mx, mb, xb⟩ := s
  simp only at h
  rw [materialize_mk m]
  cases mb with
  | nil => exact absurd rfl h
  | cons a as => simp

lemma materialize_stale_max (m : Mem) (s : StringStats)
    (h : s.max_buffer ≠ []) :
    (StringStats.materialize m s).max_buffer = s.max_buffer
    ∧ (StringStats.materialize m s).max_value = s.max_value := by
  obtain ⟨hv, mn, mx, mb, xb⟩ := s
  simp only at h
  rw [materialize_mk m]
  cases xb with
  | nil => exact absurd rfl h
  | cons a as => simp

lemma supdate_mk (m : Mem) (hv : Bool) (mn mx : StrView) (mb xb : List Nat)
    (v : StrView) :
    StringStats.SUpdate m ⟨hv, mn, mx, mb, xb⟩ v =
      if hv then
        ⟨true,
         if lexLt (viewBytes m v) (viewBytes m mn) then v else mn,
         if lexLt (viewBytes m mx) (viewBytes m v) then v else mx,
         if lexLt (viewBytes m v) (viewBytes m mn) then [] else mb,
         if lexLt (viewBytes m mx) (viewBytes m v) then [] else xb⟩
      else ⟨true, v, v, [], []⟩ := by
  unfold StringStats.SUpdate
  cases hv
  · simp
  · cases hc1 : lexLt (viewBytes m v) (viewBytes m mn) <;>
      cases hc2 : lexLt (viewBytes m mx) (viewBytes m v) <;>
      simp [hc1, hc2]

lemma smerge_mk (m : Mem) (hv : Bool) (mn mx : StrView) (mb xb : List Nat)
    (ov : Bool) (omn omx : StrView) (ob xob : List Nat) :
    StringStats.SMerge m ⟨hv, mn, mx, mb, xb⟩ ⟨ov, omn, omx, ob, xob⟩ =
      if ov then
        if hv then
          ⟨true,
           if lexLt (viewBytes m omn) (viewBytes m mn) then omn else mn,
           if lexLt (viewBytes m mx) (viewBytes m omx) then omx else mx,
           if lexLt (viewBytes m omn) (viewBytes m mn) then [] else mb,
           if lexLt (viewBytes m mx) (viewBytes m omx) then [] else xb⟩
        else ⟨true, omn, omx, [], []⟩
      else ⟨hv, mn, mx, mb, xb⟩ := by
  unfold StringStats.SMerge
  cases ov
  · simp
  · cases hv
    · simp
    · cases hc1 : lexLt (viewBytes m omn) (viewBytes m mn) <;>
        cases hc2 : lexLt (viewBytes m mx) (viewBytes m omx) <;>
        simp [hc1, hc2]

lemma lexLt_iff_lt : ∀ a b : List Nat, lexLt a b = true ↔ a < b
  | [], [] => by
      simp only [lexLt, Bool.false_eq_true, false_iff]
      exact List.Lex.not_nil_right _ _
  | [], _ :: _ => by
      simp only [lexLt, true_iff]
      exact List.Lex.nil
  | _ :: _, [] => by
      simp only [lexLt, Bool.false_eq_true, false_iff]
      exact List.Lex.not_nil_right _ _
  | a :: as, b :: bs => by
      by_cases hab : a < b
      · simp only [lexLt, if_pos hab, true_iff]
        exact List.Lex.rel hab
      · by_cases hba : b < a
        · simp only [lexLt, if_neg hab, if_pos hba, Bool.false_eq_true, false_iff]
          intro h
          cases h with
          | cons h' => exact absurd hba (lt_irrefl _)
          | rel h' => exact absurd h' hab
        · have heq : a = b := le_antisymm (not_lt.mp hba) (not_lt.mp hab)
          subst heq
          simp only [lexLt, if_neg hab, if_neg hba]
          rw [lexLt_iff_lt as bs]
          exact Iff.symm List.Lex.cons_iff

/-- Projection of a string accumulator to the generic state: the flag and the
bytes currently referenced by the two extrema. -/
def projStats (m : Mem) (s : StringStats) : ColumnStats (List Nat) :=
  ⟨s.has_values, viewBytes m s.min_value, viewBytes m s.max_value⟩

lemma supdate_proj (m : Mem) (s : StringStats) (v : StrView) :
    projStats m (StringStats.SUpdate m s v)
      = (projStats m s).Update (viewBytes m v) := by
  obtain ⟨hv, mn, mx, mb, xb⟩ := s
  rw [supdate_mk]
  cases hv
  · simp [projStats, ColumnStats.Update]
  · simp only [if_true, projStats, ColumnStats.Update]
    have hmin : viewBytes m (if lexLt (viewBytes m v) (viewBytes m mn) then v else mn)
        = min (viewBytes m mn) (viewBytes m v) := by
      cases hc : lexLt (viewBytes m v) (viewBytes m mn)
      · have hle : viewBytes m mn ≤ viewBytes m v := by
          rw [← not_lt, ← lexLt_iff_lt]
          simp [hc]
        simp [hc, min_eq_left hle]
      · have hlt : viewBytes m v < viewBytes m mn := (lexLt_iff_lt _ _).mp hc
        simp [hc, min_eq_right (le_of_lt hlt)]
    have hmax : viewBytes m (if lexLt (viewBytes m mx) (viewBytes m v) then v else mx)
        = max (viewBytes m mx) (viewBytes m v) := by
      cases hc : lexLt (viewBytes m mx) (viewBytes m v)
      · have hle : viewBytes m v ≤ viewBytes m mx := by
          rw [← not_lt, ← lexLt_iff_lt]
          simp [hc]
        simp [hc, max_eq_left hle]
      · have hlt : viewBytes m mx < viewBytes m v := (lexLt_iff_lt _ _).mp hc
        simp [hc, max_eq_right (le_of_lt hlt)]
    rw [← hmin, ← hmax]

lemma smerge_proj (m : Mem) (s other : StringStats) :
    projStats m (StringStats.SMerge m s other)
      = (projStats m s).Merge (projStats m other) := by
  obtain ⟨hv, mn, mx, mb, xb⟩ := s
  obtain ⟨ov, omn, omx, ob, xob⟩ := other
  rw [smerge_mk]
  cases ov
  · simp [projStats, ColumnStats.Merge]
  · cases hv
    · simp [projStats, ColumnStats.Merge]
    · simp only [if_true, projStats, ColumnStats.Merge]
      have hmin : viewBytes m (if lexLt (viewBytes m omn) (viewBytes m mn) then omn else mn)
          = min (viewBytes m mn) (viewBytes m omn) := by
        cases hc : lexLt (viewBytes m omn) (viewBytes m mn)
        · have hle : viewBytes m mn ≤ viewBytes m omn := by
            rw [← not_lt, ← lexLt_iff_lt]
            simp [hc]
          simp [hc, min_eq_left hle]
        · have hlt : viewBytes m omn < viewBytes m mn := (lexLt_iff_lt _ _).mp hc
          simp [hc, min_eq_right (le_of_lt hlt)]
      have hmax : viewBytes m (if lexLt (viewBytes m mx) (viewBytes m omx) then omx else mx)
          = max (viewBytes m mx) (viewBytes m omx) := by
        cases hc : lexLt (viewBytes m mx) (viewBytes m omx)
        · have hle : viewBytes m omx ≤ viewBytes m mx := by
            rw [← not_lt, ← lexLt_iff_lt]
            simp [hc]
          simp [hc, max_eq_left hle]
        · have hlt : viewBytes m mx < viewBytes m omx := (lexLt_iff_lt _ _).mp hc
          simp [hc, max_eq_right (le_of_lt hlt)]
      rw [← hmin, ← hmax]

/-- Feed a whole list of string views through the string Update, starting from
a fresh string accumulator. -/
def saccumulate (m : Mem) (l : List StrView) : StringStats :=
  l.foldl (StringStats.SUpdate m) emptyStringStats

lemma sfoldl_proj (m : Mem) (l : List StrView) : ∀ st : StringStats,
    projStats m (l.foldl (StringStats.SUpdate m) st)
      = (l.map (viewBytes m)).foldl ColumnStats.Update (projStats m st) := by
  induction l with
  | nil => intro st; rfl
  | cons v vs ih =>
      intro st
      rw [List.foldl_cons, List.map_cons, List.foldl_cons, ih, supdate_proj]

lemma saccumulate_proj (m : Mem) (l : List StrView) :
    projStats m (saccumulate m l) = accumulate [] (l.map (viewBytes m)) := by
  rw [saccumulate, sfoldl_proj]
  rfl

/-! ### Claim theorems -/

/-- C1: for every non-empty value sequence fed through Update into a fresh
accumulator, in any order, the final state has has_values true, min_value the
minimum and max_value the maximum of the sequence under the type's total
order; the first Update sets min = max = v and has_values = true, and each
later Update takes the pointwise min and max with the new value.  The last
conjunct covers the StringValue specialization: its Update computes the same
byte-lexicographic extrema over the referenced bytes. -/
theorem c1_update_computes_extrema {T : Type} [LinearOrder T] (init v : T)
    (vs : List T) :
    (accumulate init (v :: vs)).has_values = true
    ∧ (accumulate init (v :: vs)).min_value = vs.foldl min v
    ∧ (accumulate init (v :: vs)).max_value = vs.foldl max v
    ∧ (∀ l : List T, (v :: vs).Perm l → accumulate init l = accumulate init (v :: vs))
    ∧ (∀ s : ColumnStats T, s.has_values = false → s.Update v = ⟨true, v, v⟩)
    ∧ (∀ (s : ColumnStats T) (w : T), s.has_values = true →
        s.Update w = ⟨true, min s.min_value w, max s.max_value w⟩)
    ∧ (∀ (m : Mem) (v0 : StrView) (vs0 : List StrView),
        (saccumulate m (v0 :: vs0)).has_values = true
        ∧ viewBytes m (saccumulate m (v0 :: vs0)).min_value
            = (vs0.map (viewBytes m)).foldl min (viewBytes m v0)
        ∧ viewBytes m (saccumulate m (v0 :: vs0)).max_value
            = (vs0.map (viewBytes m)).foldl max (viewBytes m v0)) := by
  refine ⟨?_, ?_, ?_, ?_, ?_, ?_, ?_⟩
  · rw [accumulate_cons]
  · rw [accumulate_cons]
  · rw [accumulate_cons]
  · intro l hl
    exact (accumulate_perm init hl).symm
  · intro s hs
    exact update_of_empty s v hs
  · intro s w hs
    exact update_of_nonempty s w hs
  · intro m v0 vs0
    have hp := saccumulate_proj m (v0 :: vs0)
    rw [List.map_cons, accumulate_cons] at hp
    exact ⟨congrArg ColumnStats.has_values hp, congrArg ColumnStats.min_value hp,
      congrArg ColumnStats.max_value hp⟩

/-- C1 witness: concrete evaluation over the integers, including
order-insensitivity on a permutation. -/
theorem c1_witness :
    (accumulate (0 : Int) (5 :: [1, 9, 3])).has_values = true
    ∧ (accumulate (0 : Int) (5 :: [1, 9, 3])).min_value = [1, 9, 3].foldl min 5
    ∧ accumulate (0 : Int) [3, 9, 1, 5] = accumulate (0 : Int) (5 :: [1, 9, 3])
    ∧ (emptyStats (0 : Int)).Update 5 = ⟨true, 5, 5⟩ := by
  obtain ⟨h1, h2, _h3, h4, h5, _h6⟩ := c1_update_computes_extrema (0 : Int) 5 [1, 9, 3]
  exact ⟨h1, h2, h4 [3, 9, 1, 5] (by decide), h5 (emptyStats 0) (by decide)⟩

/-- C2: accumulating two groups separately and merging equals accumulating
the concatenation; merging is order-insensitive; and Merge with a non-empty
other whose extrema are ordered behaves exactly as two sequential Update
calls with the other's min and max.  The last conjunct covers the StringValue
specialization at the level of flag and referenced bytes. -/
theorem c2_merge_is_partition_invariant {T : Type} [LinearOrder T] (init : T) :
    (∀ l1 l2 : List T,
      (accumulate init l1).Merge (accumulate init l2) = accumulate init (l1 ++ l2))
    ∧ (∀ l1 l2 : List T,
      (accumulate init l1).Merge (accumulate init l2)
        = (accumulate init l2).Merge (accumulate init l1))
    ∧ (∀ s other : ColumnStats T, other.has_values = true →
        other.min_value ≤ other.max_value →
        s.Merge other = (s.Update other.min_value).Update other.max_value)
    ∧ (∀ (m : Mem) (l1 l2 : List StrView),
        projStats m (StringStats.SMerge m (saccumulate m l1) (saccumulate m l2))
          = projStats m (saccumulate m (l1 ++ l2))) := by
  refine ⟨merge_accumulate init, merge_accumulate_comm init,
    fun s other h1 h2 => merge_as_updates s other h1 h2, ?_⟩
  intro m l1 l2
  rw [smerge_proj, saccumulate_proj, saccumulate_proj, saccumulate_proj,
    merge_accumulate, List.map_append]

/-- C2 witness: the spec's own integer example, merged both ways, plus the
merge-as-two-updates identity at a concrete non-empty other. -/
theorem c2_witness :
    (accumulate (0 : Int) [5, 1, 9, 3]).Merge (accumulate (0 : Int) [-2, 9])
      = accumulate (0 : Int) ([5, 1, 9, 3] ++ [-2, 9])
    ∧ (accumulate (0 : Int) [5, 1, 9, 3]).Merge (accumulate (0 : Int) [-2, 9])
      = (accumulate (0 : Int) [-2, 9]).Merge (accumulate (0 : Int) [5, 1, 9, 3])
    ∧ (accumulate (0 : Int) [5, 1, 9, 3]).Merge (accumulate (0 : Int) [-2, 9])
      = ((accumulate (0 : Int) [5, 1, 9, 3]).Update
          (accumulate (0 : Int) [-2, 9]).min_value).Update
          (accumulate (0 : Int) [-2, 9]).max_value := by
  obtain ⟨h1, h2, h3, _h4⟩ := c2_merge_is_partition_invariant (0 : Int)
  exact ⟨h1 [5, 1, 9, 3] [-2, 9], h2 [5, 1, 9, 3] [-2, 9],
    h3 _ (accumulate (0 : Int) [-2, 9]) (by decide) (by decide)⟩

/-- C6: in every state reachable from a fresh accumulator by Update and Merge
with reachable others, has_values implies min_value is at most max_value, and
each Update and Merge preserves this invariant. -/
theorem c6_min_le_max_invariant {T : Type} [LinearOrder T] :
    (∀ s : ColumnStats T, Reachable s → s.has_values = true →
      s.min_value ≤ s.max_value)
    ∧ (∀ (s : ColumnStats T) (v : T),
        (s.has_values = true → s.min_value ≤ s.max_value) →
        (s.Update v).has_values = true →
        (s.Update v).min_value ≤ (s.Update v).max_value)
    ∧ (∀ s t : ColumnStats T,
        (s.has_values = true → s.min_value ≤ s.max_value) →
        (t.has_values = true → t.min_value ≤ t.max_value) →
        (s.Merge t).has_values = true →
        (s.Merge t).min_value ≤ (s.Merge t).max_value) := by
  refine ⟨?_, fun s v hs _ => update_preserves_le s v hs, merge_preserves_le⟩
  intro s hr
  induction hr with
  | empty init => intro hv; cases hv
  | update v hr ih => intro _; exact update_preserves_le _ v ih
  | merge hr1 hr2 ih1 ih2 => intro hv; exact merge_preserves_le _ _ ih1 ih2 hv

/-- C6 witness: the invariant evaluated on a concrete reachable state built by
one Update and one Merge. -/
theorem c6_witness :
    (((emptyStats (0 : Int)).Update 3).Merge ((emptyStats (0 : Int)).Update 7)).min_value
      ≤ (((emptyStats (0 : Int)).Update 3).Merge ((emptyStats (0 : Int)).Update 7)).max_value := by
  exact c6_min_le_max_invariant.1 _
    (Reachable.merge (Reachable.update 3 (Reachable.empty 0))
      (Reachable.update 7 (Reachable.empty 0))) (by decide)

/-- C9: an accumulator with has_values false is refused by EncodeToThrift (its
DCHECK fails; the encode is not completed), and passing an empty accumulator
as the other argument of Merge, generic or string, leaves the receiver
entirely unchanged. -/
theorem c9_empty_encode_refused_merge_noop {T : Type} [LinearOrder T]
    (enc : T → List Nat) :
    (∀ s : ColumnStats T, s.has_values = false →
      EncodeToThrift enc s = EncodeOutcome.assertViolation)
    ∧ (∀ s other : ColumnStats T, other.has_values = false → s.Merge other = s)
    ∧ (∀ (m : Mem) (s other : StringStats), other.has_values = false →
        StringStats.SMerge m s other = s) := by
  refine ⟨?_, ?_, ?_⟩
  · intro s hs
    simp [EncodeToThrift, hs]
  · intro s other h
    simp [ColumnStats.Merge, h]
  · intro m s other h
    simp [StringStats.SMerge, h]

/-- C9 witness: concrete empty accumulators refuse to encode and are merge
no-ops, for integer and string statistics alike. -/
theorem c9_witness :
    EncodeToThrift (fun _ : Int => ([] : List Nat)) (emptyStats 0)
      = EncodeOutcome.assertViolation
    ∧ ((emptyStats (0 : Int)).Update 4).Merge (emptyStats 0)
      = (emptyStats (0 : Int)).Update 4
    ∧ StringStats.SMerge (fun _ => 0) emptyStringStats emptyStringStats
      = emptyStringStats := by
  obtain ⟨h1, h2, h3⟩ := c9_empty_encode_refused_merge_noop
    (fun _ : Int => ([] : List Nat))
  exact ⟨h1 (emptyStats 0) (by decide), h2 _ (emptyStats 0) (by decide),
    h3 (fun _ => 0) emptyStringStats emptyStringStats (by decide)⟩

/-- C3: decoding the bytes produced by encoding a value with its computed byte
size returns the value, for w-byte little-endian integers in range, booleans,
calendar-valid timestamps, and byte strings including the empty string. -/
theorem c3_encode_decode_roundtrip :
    (∀ (w : Nat) (v : Int), 1 ≤ w → -(2 ^ (8 * w - 1)) ≤ v → v < 2 ^ (8 * w - 1) →
      decodeIntLE w (encodeIntLE w v) = some v)
    ∧ (∀ b : Bool, boolDecodePlainValue (boolEncodePlainValue b) = BoolDecodeResult.ok b)
    ∧ (∀ t : TimestampValue, t.IsValidDate = true →
      timestampDecodePlainValue (encodeTimestamp t) = some t)
    ∧ (∀ s : StringValueM, stringDecodePlainValue (stringEncodePlainValue s) = some s) := by
  refine ⟨fun w v hw h1 h2 => decodeIntLE_encodeIntLE w hw v h1 h2, ?_, ?_, ?_⟩
  · intro b
    cases b <;> rfl
  · intro t h
    unfold timestampDecodePlainValue
    rw [decodeTimestampFixed_encode h]
    show (if t.IsValidDate = true then some t else none) = some t
    rw [if_pos h]
  · intro s
    rfl

/-- C3 witness: round trips evaluated at concrete values of each type,
including a negative 4-byte integer, the empty string, and the Unix epoch
Julian day. -/
theorem c3_witness :
    decodeIntLE 4 (encodeIntLE 4 (-7)) = some (-7)
    ∧ boolDecodePlainValue (boolEncodePlainValue true) = BoolDecodeResult.ok true
    ∧ timestampDecodePlainValue (encodeTimestamp ⟨0, 2440588⟩) = some ⟨0, 2440588⟩
    ∧ stringDecodePlainValue (stringEncodePlainValue ⟨[]⟩) = some ⟨[]⟩ := by
  obtain ⟨h1, h2, h3, h4⟩ := c3_encode_decode_roundtrip
  exact ⟨h1 4 (-7) (by norm_num) (by norm_num) (by norm_num), h2 true,
    h3 ⟨0, 2440588⟩ (by decide), h4 ⟨[]⟩⟩

/-- C4 counterexample: the claim says the bool DecodePlainValue returns a
decode failure (the function returning false) for every buffer whose length
is not 1; on the empty buffer the function instead trips its DCHECK and has
no path returning false. -/
theorem c4_counterexample :
    boolDecodePlainValue [] = BoolDecodeResult.assertViolation
    ∧ boolDecodePlainValue [] ≠ BoolDecodeResult.fail := by
  exact ⟨rfl, by decide⟩

/-- C4 amended: bool EncodePlainValue always produces exactly one byte, 1 for
true and 0 for false, and BytesNeeded is 1; DecodePlainValue never returns a
decode failure: a buffer whose length is not 1 violates the DCHECK assertion
instead, and for a one-byte buffer it succeeds with value byte-nonzero. -/
theorem c4_bool_encode_decode :
    (∀ v : Bool, boolEncodePlainValue v = [if v then 1 else 0]
      ∧ (boolEncodePlainValue v).length = 1
      ∧ boolBytesNeeded v = 1)
    ∧ (∀ buffer : List Nat, buffer.length ≠ 1 →
        boolDecodePlainValue buffer = BoolDecodeResult.assertViolation)
    ∧ (∀ b : Nat, boolDecodePlainValue [b] = BoolDecodeResult.ok (decide (b ≠ 0)))
    ∧ (∀ buffer : List Nat, boolDecodePlainValue buffer ≠ BoolDecodeResult.fail) := by
  refine ⟨fun v => ⟨rfl, rfl, rfl⟩, ?_, ?_, ?_⟩
  · intro buffer h
    rw [boolDecodePlainValue, if_neg h]
  · intro b
    rfl
  · intro buffer
    rw [boolDecodePlainValue]
    split <;> simp

/-- C4 witness: the amended behavior evaluated on concrete buffers of length
zero, two, and one. -/
theorem c4_witness :
    boolEncodePlainValue false = [0]
    ∧ boolDecodePlainValue [] = BoolDecodeResult.assertViolation
    ∧ boolDecodePlainValue [3, 4] = BoolDecodeResult.assertViolation
    ∧ boolDecodePlainValue [2] = BoolDecodeResult.ok true := by
  obtain ⟨h1, h2, h3, _h4⟩ := c4_bool_encode_decode
  exact ⟨(h1 false).1, h2 [] (by decide), h2 [3, 4] (by decide),
    by simpa using h3 2⟩

/-- C5: the timestamp DecodePlainValue succeeds exactly when the fixed-width
decode succeeds and the decoded value is a calendar-valid date; in
particular a correctly-sized buffer whose decoded timestamp is invalid is
rejected, as the concrete all-zero 12-byte buffer shows. -/
theorem c5_timestamp_decode_validates :
    (∀ (buffer : List Nat) (t : TimestampValue),
      timestampDecodePlainValue buffer = some t ↔
        (decodeTimestampFixed buffer = some t ∧ t.IsValidDate = true))
    ∧ ([0, 0, 0, 0, 0, 0, 0, 0, 0, 0, 0, 0] : List Nat).length = 12
    ∧ decodeTimestampFixed [0, 0, 0, 0, 0, 0, 0, 0, 0, 0, 0, 0]
        = some ⟨0, 0⟩
    ∧ timestampDecodePlainValue [0, 0, 0, 0, 0, 0, 0, 0, 0, 0, 0, 0] = none := by
  refine ⟨?_, by decide, by decide, by decide⟩
  intro buffer t
  unfold timestampDecodePlainValue
  cases h : decodeTimestampFixed buffer with
  | none => simp
  | some u =>
      show (if u.IsValidDate = true then some u else none) = some t ↔ _
      by_cases hu : u.IsValidDate = true
      · rw [if_pos hu]
        constructor
        · intro h'
          cases h'
          exact ⟨rfl, hu⟩
        · rintro ⟨h', _⟩
          exact h'
      · rw [if_neg hu]
        constructor
        · intro h'
          cases h'
        · rintro ⟨h', hv⟩
          cases h'
          exact absurd hv hu

/-- C10: the string DecodePlainValue never fails: every buffer, including the
empty one, decodes successfully to a zero-copy value whose bytes are exactly
the buffer's bytes and whose length is the buffer's length. -/
theorem c10_string_decode_never_fails (buffer : List Nat) :
    stringDecodePlainValue buffer = some ⟨buffer⟩
    ∧ stringDecodePlainValue buffer ≠ none
    ∧ (∀ v : StringValueM, stringDecodePlainValue buffer = some v →
        v.bytes = buffer ∧ v.sLen = buffer.length) := by
  refine ⟨rfl, by simp [stringDecodePlainValue], ?_⟩
  intro v hv
  cases hv
  exact ⟨rfl, rfl⟩

/-- C10 witness: concrete evaluation on the empty buffer and a two-byte
buffer. -/
theorem c10_witness :
    stringDecodePlainValue [] = some ⟨[]⟩
    ∧ stringDecodePlainValue [7, 8] = some ⟨[7, 8]⟩
    ∧ (⟨[7, 8]⟩ : StringValueM).sLen = ([7, 8] : List Nat).length := by
  exact ⟨(c10_string_decode_never_fails []).1, (c10_string_decode_never_fails [7, 8]).1,
    ((c10_string_decode_never_fails [7, 8]).2.2 ⟨[7, 8]⟩ rfl).2⟩

/-- C7: MaterializeStringValuesToInternalBuffers is idempotent, even if the
source memory has changed between the calls; a first call on a side with an
empty buffer copies exactly the bytes the extremum references and retargets
the view at the owned copy, so the reported bytes no longer depend on source
memory; a side whose buffer is already non-empty is left untouched. -/
theorem c7_materialize_idempotent (m mfree : Mem) (s : StringStats) :
    StringStats.materialize mfree (StringStats.materialize m s)
      = StringStats.materialize m s
    ∧ (s.min_buffer = [] →
        (StringStats.materialize m s).min_buffer = viewBytes m s.min_value
        ∧ (StringStats.materialize m s).min_value
            = StrView.owned (viewBytes m s.min_value)
        ∧ viewBytes mfree (StringStats.materialize m s).min_value
            = viewBytes m s.min_value)
    ∧ (s.max_buffer = [] →
        (StringStats.materialize m s).max_buffer = viewBytes m s.max_value
        ∧ (StringStats.materialize m s).max_value
            = StrView.owned (viewBytes m s.max_value)
        ∧ viewBytes mfree (StringStats.materialize m s).max_value
            = viewBytes m s.max_value)
    ∧ (s.min_buffer ≠ [] →
        (StringStats.materialize m s).min_buffer = s.min_buffer
        ∧ (StringStats.materialize m s).min_value = s.min_value)
    ∧ (s.max_buffer ≠ [] →
        (StringStats.materialize m s).max_buffer = s.max_buffer
        ∧ (StringStats.materialize m s).max_value = s.max_value) :=
  ⟨materialize_idem m mfree s, materialize_fresh_min m mfree s,
    materialize_fresh_max m mfree s, materialize_stale_min m s,
    materialize_stale_max m s⟩

/-- C7 witness: a concrete accumulator whose min references source memory; the
copied bytes survive a change of the source memory, and a second materialize
is a no-op. -/
theorem c7_witness :
    StringStats.materialize (fun _ => 9)
        (StringStats.materialize (fun a => a) ⟨true, .ext 2 2, .owned [7], [], [7]⟩)
      = StringStats.materialize (fun a => a) ⟨true, .ext 2 2, .owned [7], [], [7]⟩
    ∧ (StringStats.materialize (fun a => a)
        ⟨true, .ext 2 2, .owned [7], [], [7]⟩).min_buffer
      = viewBytes (fun a => a) (StrView.ext 2 2)
    ∧ viewBytes (fun _ => 9)
        (StringStats.materialize (fun a => a)
          ⟨true, .ext 2 2, .owned [7], [], [7]⟩).min_value
      = viewBytes (fun a => a) (StrView.ext 2 2)
    ∧ (StringStats.materialize (fun a => a)
        ⟨true, .ext 2 2, .owned [7], [], [7]⟩).max_buffer = [7] := by
  obtain ⟨h1, h2, _h3, _h4, h5⟩ :=
    c7_materialize_idempotent (fun a => a) (fun _ => 9)
      ⟨true, .ext 2 2, .owned [7], [], [7]⟩
  obtain ⟨h2a, _h2b, h2c⟩ := h2 rfl
  exact ⟨h1, h2a, h2c, (h5 (by decide)).1⟩

/-- C8: every string Update or Merge that does not keep an extremum and its
buffer untouched leaves that extremum's materialization buffer empty; and
when the byte-lexicographic comparison does not replace an extremum, both the
extremum and its buffer are unchanged. -/
theorem c8_reassignment_invalidates_buffer (m : Mem) (s : StringStats)
    (v : StrView) (other : StringStats) :
    (((StringStats.SUpdate m s v).min_value = s.min_value
        ∧ (StringStats.SUpdate m s v).min_buffer = s.min_buffer)
      ∨ (StringStats.SUpdate m s v).min_buffer = [])
    ∧ (((StringStats.SUpdate m s v).max_value = s.max_value
        ∧ (StringStats.SUpdate m s v).max_buffer = s.max_buffer)
      ∨ (StringStats.SUpdate m s v).max_buffer = [])
    ∧ (((StringStats.SMerge m s other).min_value = s.min_value
        ∧ (StringStats.SMerge m s other).min_buffer = s.min_buffer)
      ∨ (StringStats.SMerge m s other).min_buffer = [])
    ∧ (((StringStats.SMerge m s other).max_value = s.max_value
        ∧ (StringStats.SMerge m s other).max_buffer = s.max_buffer)
      ∨ (StringStats.SMerge m s other).max_buffer = [])
    ∧ (s.has_values = true →
        lexLt (viewBytes m v) (viewBytes m s.min_value) = false →
        (StringStats.SUpdate m s v).min_value = s.min_value
        ∧ (StringStats.SUpdate m s v).min_buffer = s.min_buffer)
    ∧ (s.has_values = true →
        lexLt (viewBytes m s.max_value) (viewBytes m v) = false →
        (StringStats.SUpdate m s v).max_value = s.max_value
        ∧ (StringStats.SUpdate m s v).max_buffer = s.max_buffer)
    ∧ (s.has_values = true → other.has_values = true →
        lexLt (viewBytes m other.min_value) (viewBytes m s.min_value) = false →
        (StringStats.SMerge m s other).min_value = s.min_value
        ∧ (StringStats.SMerge m s other).min_buffer = s.min_buffer)
    ∧ (s.has_values = true → other.has_values = true →
        lexLt (viewBytes m s.max_value) (viewBytes m other.max_value) = false →
        (StringStats.SMerge m s other).max_value = s.max_value
        ∧ (StringStats.SMerge m s other).max_buffer = s.max_buffer) := by
  obtain ⟨hv, mn, mx, mb, xb⟩ := s
  obtain ⟨ov, omn, omx, ob, xob⟩ := other
  rw [supdate_mk, smerge_mk]
  refine ⟨?_, ?_, ?_, ?_, ?_, ?_, ?_, ?_⟩
  · cases hv
    · simp
    · cases hc : lexLt (viewBytes m v) (viewBytes m mn) <;> simp [hc]
  · cases hv
    · simp
    · cases hc : lexLt (viewBytes m mx) (viewBytes m v) <;> simp [hc]
  · cases ov
    · simp
    · cases hv
      · simp
      · cases hc : lexLt (viewBytes m omn) (viewBytes m mn) <;> simp [hc]
  · cases ov
    · simp
    · cases hv
      · simp
      · cases hc : lexLt (viewBytes m mx) (viewBytes m omx) <;> simp [hc]
  · intro hhv hc
    simp only at hhv
    subst hhv
    simp [hc]
  · intro hhv hc
    simp only at hhv
    subst hhv
    simp [hc]
  · intro hhv hov hc
    simp only at hhv hov
    subst hhv
    subst hov
    simp [hc]
  · intro hhv hov hc
    simp only at hhv hov
    subst hhv
    subst hov
    simp [hc]

/-- C8 witness: a concrete non-winning Update and Merge leave extremum and
buffer untouched, and a winning Update leaves the min buffer empty. -/
theorem c8_witness :
    (StringStats.SUpdate (fun _ => 0) ⟨true, .owned [3], .owned [5], [3], [5]⟩
        (.owned [4])).min_value = StrView.owned [3]
    ∧ (StringStats.SUpdate (fun _ => 0) ⟨true, .owned [3], .owned [5], [3], [5]⟩
        (.owned [4])).max_buffer = [5]
    ∧ (StringStats.SMerge (fun _ => 0) ⟨true, .owned [3], .owned [5], [3], [5]⟩
        ⟨true, .owned [3], .owned [5], [], []⟩).min_buffer = [3]
    ∧ (StringStats.SMerge (fun _ => 0) ⟨true, .owned [3], .owned [5], [3], [5]⟩
        ⟨true, .owned [3], .owned [5], [], []⟩).max_value = StrView.owned [5]
    ∧ (StringStats.SUpdate (fun _ => 0) ⟨true, .owned [3], .owned [5], [3], [5]⟩
        (.owned [1])).min_buffer = [] := by
  obtain ⟨hd1, _hd2, _hd3, _hd4, h5, h6, h7, h8⟩ :=
    c8_reassignment_invalidates_buffer (fun _ => 0)
      ⟨true, .owned [3], .owned [5], [3], [5]⟩ (.owned [4])
      ⟨true, .owned [3], .owned [5], [], []⟩
  refine ⟨(h5 rfl (by decide)).1, (h6 rfl (by decide)).2,
    (h7 rfl rfl (by decide)).2, (h8 rfl rfl (by decide)).1, ?_⟩
  have hd :=
    (c8_reassignment_invalidates_buffer (fun _ => 0)
      ⟨true, .owned [3], .owned [5], [3], [5]⟩ (.owned [1])
      ⟨true, .owned [3], .owned [5], [], []⟩).1
  rcases hd with ⟨hval, _⟩ | hbuf
  · exact absurd hval (by decide)
  · exact hbuf

end ImpalaStats
